import Mathlib

/-!
Verification of the Sokoban puzzle simulation engine (bevy-sokoban).

Shallow embedding of the core logic: the grid data model (`Position`,
`Obstacle`, `LevelState`, `UndoStack`), the level loader (`levelSetup`,
from `main.rs`), the move resolver (`resolve`, from `handle_input` in
`play_plugin.rs`), the commit step of the move state machine
(`commitPending`, from the timer-finished branch of `move_objects`),
the win check (`winSignal`), and the undo operation (`undoOp`, from
`reset_state`). Bevy's `HashMap` resources are embedded as association
lists with lookup/erase/insert mirroring `HashMap` semantics; entities
are natural numbers allocated by a spawn counter.
-/

namespace Sokoban

abbrev Entity := Nat

/-- Struct `Position` from `main.rs`: integer lattice coordinate, used as a map key. -/
structure Position where
  x : Int
  y : Int
deriving DecidableEq, Repr

/-- Method `Position::add` from `main.rs`. -/
def Position.add (p : Position) (dx dy : Int) : Position :=
  ⟨p.x + dx, p.y + dy⟩

/-- Enum `Obstacle` from `main.rs`: `Block` is pushable, `Wall` is immovable. -/
inductive Obstacle where
  | Block
  | Wall
deriving DecidableEq, Repr

/-- Embedding of `bevy::utils::HashMap<Position, α>` as an association list. -/
abbrev PMap (α : Type) := List (Position × α)

/-- Embeds `HashMap::get`. -/
def lookupA {α : Type} : PMap α → Position → Option α
  | [], _ => none
  | (k, v) :: rest, p => if k = p then some v else lookupA rest p

/-- Embeds `HashMap::contains_key`. -/
def containsA {α : Type} (m : PMap α) (p : Position) : Bool :=
  (lookupA m p).isSome

/-- Embeds `HashMap::remove` (the key-removal effect; the returned value is read
via `lookupA` where the code uses the `Option` result). -/
def eraseA {α : Type} : PMap α → Position → PMap α
  | [], _ => []
  | (k, v) :: rest, p => if k = p then eraseA rest p else (k, v) :: eraseA rest p

/-- Embeds `HashMap::insert`: replaces any existing entry at the key. -/
def insertA {α : Type} (m : PMap α) (p : Position) (v : α) : PMap α :=
  (p, v) :: eraseA m p

/-- Resource `LevelState` from `play_plugin.rs` / `main.rs`. -/
structure LevelState where
  current_level : Int
  obstacles : PMap (Entity × Obstacle)
  goals : PMap Entity
  player_position : Position
deriving DecidableEq, Repr

/-- Resource `UndoStack` from `play_plugin.rs`: a `Vec<LevelState>`; we keep the top
of the stack at the head of the list (`push` is cons, `pop` takes the head). -/
abbrev UndoStack := List LevelState

/-- The four directional intents of `handle_input` (arrow keys). -/
inductive Dir where
  | up
  | down
  | left
  | right
deriving DecidableEq, Repr

/-- The `(move_x, move_y)` pair chosen in `handle_input`. -/
def Dir.delta : Dir → Int × Int
  | .up => (0, -1)
  | .down => (0, 1)
  | .left => (-1, 0)
  | .right => (1, 0)

/-- Component `Moving` from `play_plugin.rs` (`from`/`to` fields; `from` is a
Lean keyword so the fields are `fromPos`/`toPos`). -/
structure Moving where
  fromPos : Position
  toPos : Position
deriving DecidableEq, Repr

/-- The pending moves created by one accepted `handle_input` resolution:
always a `Moving` on the player, plus at most one on a pushed block. -/
structure Pending where
  playerMove : Moving
  blockMove : Option (Entity × Moving)
deriving DecidableEq, Repr

/-- The destination tile of a directional intent (the local `move_to` in
`handle_input`: player position plus the direction's delta). -/
def dest (s : LevelState) (d : Dir) : Position :=
  s.player_position.add d.delta.1 d.delta.2

/-- The tile one further step in the same direction (the local
`block_move_to` in `handle_input`). -/
def beyond (s : LevelState) (d : Dir) : Position :=
  (dest s d).add d.delta.1 d.delta.2

/-- The movement-resolution portion of `handle_input`
(`play_plugin.rs` lines 79–103): look up the destination tile; a `Wall`
rejects; a `Block` whose beyond tile is occupied rejects; otherwise the
pending moves are created. `none` is rejection (no `Moving` inserted,
`is_moving` left false, no state change). -/
def resolve (s : LevelState) (d : Dir) : Option Pending :=
  match lookupA s.obstacles (dest s d) with
  | some (_, Obstacle.Wall) => none
  | some (be, Obstacle.Block) =>
      if containsA s.obstacles (beyond s d) then none
      else some ⟨⟨s.player_position, dest s d⟩, some (be, ⟨dest s d, beyond s d⟩)⟩
  | none => some ⟨⟨s.player_position, dest s d⟩, none⟩

/-- One iteration of the commit loop in `move_objects`
(`play_plugin.rs` lines 179–190) for one entity carrying `Moving`:
if the entity is the player, `player_position` becomes `to`; then the
`obstacles` entry at `from`, when present, is removed and reinserted
at `to` (a missing entry is a no-op branch, not an error). -/
def applyMoving (isPlayer : Bool) (s : LevelState) (m : Moving) : LevelState :=
  let s1 := if isPlayer then { s with player_position := m.toPos } else s
  match lookupA s1.obstacles m.fromPos with
  | none => s1
  | some ob => { s1 with obstacles := insertA (eraseA s1.obstacles m.fromPos) m.toPos ob }

/-- The whole commit loop of `move_objects` over the moving entities.
The ECS query iteration order over the player and a pushed block is
unspecified; we fix player-then-block (under the player-not-on-an-obstacle
invariant the two orders produce the same state). -/
def commitPending (s : LevelState) (p : Pending) : LevelState :=
  let s1 := applyMoving true s p.playerMove
  match p.blockMove with
  | none => s1
  | some (_, bm) => applyMoving false s1 bm

/-- The win check at the end of `move_objects` (`play_plugin.rs` lines
192–198): if every goal key is a key of `obstacles`, a `NextLevelEvent`
carrying `current_level + 1` is sent (modelled as `some` of the level id). -/
def winSignal (s : LevelState) : Option Int :=
  if s.goals.all (fun g => containsA s.obstacles g.1) then some (s.current_level + 1)
  else none

/-- One full resolved-and-committed move: `handle_input` acceptance followed
by the timer-finished branch of `move_objects`. On rejection nothing
happens; on acceptance the pre-mutation `LevelState` is pushed onto the
undo stack (`play_plugin.rs` line 178, before the mutation loop), the
moves are committed, and the win check runs on the committed state.
Returns the new state, the new undo stack, and the optional level-advance
signal. -/
def tryMove (s : LevelState) (u : UndoStack) (d : Dir) :
    LevelState × UndoStack × Option Int :=
  match resolve s d with
  | none => (s, u, none)
  | some p =>
      let u' := s :: u
      let s' := commitPending s p
      (s', u', winSignal s')

/-- The undo path of `reset_state` (`play_plugin.rs` lines 113–117):
pop the most recent snapshot and replace `LevelState` wholesale; an empty
stack is a silent no-op. -/
def undoOp : LevelState × UndoStack → LevelState × UndoStack
  | (s, []) => (s, [])
  | (_, prev :: rest) => (prev, rest)

/-- Runs `n` undo requests in sequence. -/
def undoN : Nat → LevelState × UndoStack → LevelState × UndoStack
  | 0, x => x
  | n + 1, x => undoOp (undoN n x)

/-- Run a sequence of directional intents, each resolved and (when accepted)
run to commit, threading the undo stack. Signals are not accumulated here. -/
def applyMoves (s : LevelState) (u : UndoStack) : List Dir → LevelState × UndoStack
  | [] => (s, u)
  | d :: ds =>
      let r := tryMove s u d
      applyMoves r.1 r.2.1 ds

/-- Every intent in the list is accepted by the resolver at its point in the
sequence (each move is legal and runs to commit). -/
def movesLegal (s : LevelState) : List Dir → Bool
  | [] => true
  | d :: ds =>
      match resolve s d with
      | none => false
      | some p => movesLegal (commitPending s p) ds

/-! ## Level loader (`level_setup` in `main.rs`) -/

/-- Accumulator for the loader's double loop: the entity spawn counter
(`Commands::spawn().id()` handing out fresh ids in spawn order) and the
maps being built. -/
structure LoadAcc where
  nextId : Entity
  obstacles : PMap (Entity × Obstacle)
  goals : PMap Entity
  player : Option Position

/-- One cell of the loader's loop body (`main.rs` lines 129–233): every cell
spawns a floor sprite (consuming an entity id), then the code is matched:
`1` records the player position and spawns the player, `2` spawns a block
and inserts it into `obstacles`, `4` spawns a goal, `8` spawns a wall;
`0` and any other code do nothing. -/
def loadCell (acc : LoadAcc) (pos : Position) (code : Int) : LoadAcc :=
  let acc := { acc with nextId := acc.nextId + 1 }
  if code = 1 then
    { acc with nextId := acc.nextId + 1, player := some pos }
  else if code = 2 then
    { acc with
      nextId := acc.nextId + 1
      obstacles := insertA acc.obstacles pos (acc.nextId, Obstacle.Block) }
  else if code = 4 then
    { acc with
      nextId := acc.nextId + 1
      goals := insertA acc.goals pos acc.nextId }
  else if code = 8 then
    { acc with
      nextId := acc.nextId + 1
      obstacles := insertA acc.obstacles pos (acc.nextId, Obstacle.Wall) }
  else acc

/-- One row of the loader's inner loop: cells of `row` at column indices
`x, x+1, …` in row `y`. -/
def rowCells (y : Nat) : Nat → List Int → List (Position × Int)
  | _, [] => []
  | x, c :: cs => (Position.mk (x : Int) (y : Int), c) :: rowCells y (x + 1) cs

/-- The loader's outer loop: rows at row indices `y, y+1, …`. -/
def cellsFrom : Nat → List (List Int) → List (Position × Int)
  | _, [] => []
  | y, row :: rows => rowCells y 0 row ++ cellsFrom (y + 1) rows

/-- The layout flattened in loop order: row index is `y`, column index is
`x`, `y` increasing downward (`enumerate` over rows then columns). -/
def levelCells (layout : List (List Int)) : List (Position × Int) :=
  cellsFrom 0 layout

/-- The loader's double loop as a fold over the flattened cells. -/
def loadCells (acc : LoadAcc) : List (Position × Int) → LoadAcc
  | [] => acc
  | pc :: rest => loadCells (loadCell acc pc.1 pc.2) rest

/-- Function `level_setup` from `main.rs` restricted to its `LevelState` construction:
the camera takes entity id 0, then the double loop runs, and the resulting
`LevelState` is inserted. `player_position.unwrap()` panics when the layout
has no `1` cell; modelled as `none`. -/
def levelSetup (level : Int) (layout : List (List Int)) : Option LevelState :=
  let acc := loadCells ⟨1, [], [], none⟩ (levelCells layout)
  match acc.player with
  | none => none
  | some pp => some ⟨level, acc.obstacles, acc.goals, pp⟩

/-- Layout `level_one` from `main.rs`. -/
def level_one : List (List Int) :=
  [[8, 8, 8, 8, 8, 8],
   [8, 4, 0, 2, 1, 8],
   [8, 8, 8, 0, 0, 8],
   [0, 0, 8, 8, 8, 8]]

/-- Layout `level_two` from `main.rs`. -/
def level_two : List (List Int) :=
  [[8, 8, 8, 0, 8, 8, 8, 8],
   [8, 4, 8, 8, 8, 2, 1, 8],
   [8, 2, 0, 0, 0, 0, 2, 8],
   [8, 0, 0, 0, 2, 0, 0, 8],
   [8, 8, 8, 8, 8, 8, 8, 8]]

/-- Row count of a layout (`level_layout.len()`). -/
def rowCount (layout : List (List Int)) : Int := (layout.length : Int)

/-- Column count of a layout (`level_layout.first().unwrap().len()`). -/
def colCount (layout : List (List Int)) : Int := ((layout.headD []).length : Int)

/-- The layout is rectangular: every row has the first row's length. -/
def Rectangular (layout : List (List Int)) : Prop :=
  ∀ row ∈ layout, (row.length : Int) = colCount layout

instance (layout : List (List Int)) : Decidable (Rectangular layout) :=
  List.decidableBAll _ layout

/-- A position lies within the layout's original bounds. -/
def InBounds (layout : List (List Int)) (p : Position) : Prop :=
  0 ≤ p.x ∧ p.x < colCount layout ∧ 0 ≤ p.y ∧ p.y < rowCount layout

instance (layout : List (List Int)) (p : Position) : Decidable (InBounds layout p) := by
  unfold InBounds
  infer_instance

/-- The `LevelState` invariant stated in the spec (§3): every obstacle key
and every goal key lies within the layout bounds, and the player's position
is never a key of `obstacles`. -/
def StateInv (layout : List (List Int)) (s : LevelState) : Prop :=
  (∀ e ∈ s.obstacles, InBounds layout e.1) ∧
  (∀ g ∈ s.goals, InBounds layout g.1) ∧
  containsA s.obstacles s.player_position = false

instance (layout : List (List Int)) (s : LevelState) : Decidable (StateInv layout s) := by
  unfold StateInv
  exact instDecidableAnd

/-! ## Connectivity scan

The final loader (the crate root of `play_plugin.rs`, which also defines
`level_four` and the floor placement built on `tiles.rs::spawn_floor`) is
not among the source files; `main.rs` here is an earlier snapshot whose
loader floors every cell unconditionally. The scan below is therefore
modelled from the spec rather than translated from source. -/

/-- Modelled from the spec: a tile is traversable for the Connectivity Scan
when it holds no obstacle or holds a `Block`; only a `Wall` stops the
scan (§4.2). The scan-based floor placement itself is missing from the
source files. -/
def traversable (obstacles : PMap (Entity × Obstacle)) (p : Position) : Bool :=
  match lookupA obstacles p with
  | none => true
  | some (_, Obstacle.Block) => true
  | some (_, Obstacle.Wall) => false

/-- The 4-connected neighbors of a tile. -/
def neighbors (p : Position) : List Position :=
  [p.add 0 (-1), p.add 0 1, p.add (-1) 0, p.add 1 0]

/-- Modelled from the spec: worklist flood fill, fuel-bounded. A popped
tile already visited is skipped; otherwise it is recorded and its
traversable neighbors join the frontier. -/
def scanAux (obs : PMap (Entity × Obstacle)) :
    Nat → List Position → List Position → List Position
  | 0, visited, _ => visited
  | _ + 1, visited, [] => visited
  | fuel + 1, visited, p :: frontier =>
      if p ∈ visited then scanAux obs fuel visited frontier
      else scanAux obs fuel (p :: visited) ((neighbors p).filter (traversable obs) ++ frontier)

/-- Modelled from the spec: the Connectivity Scan starting at the player's
start position; its output is exactly the set of tiles that receive floor
visuals in the final loader. -/
def connectivityScan (obs : PMap (Entity × Obstacle)) (start : Position) (fuel : Nat) :
    List Position :=
  scanAux obs fuel [] [start]

/-- Reachability in the 4-connected neighbor graph through traversable
tiles: the specification-level characterization the scan is checked
against. -/
inductive Reach (obs : PMap (Entity × Obstacle)) (start : Position) : Position → Prop
  | refl : Reach obs start start
  | step {p q : Position} :
      Reach obs start p → q ∈ neighbors p → traversable obs q = true → Reach obs start q

/-- A visited list is saturated: every traversable neighbor of a visited
tile is itself visited (the scan ran to completion within its fuel). -/
def ScanClosed (obs : PMap (Entity × Obstacle)) (visited : List Position) : Prop :=
  ∀ v ∈ visited, ∀ q ∈ neighbors v, traversable obs q = true → q ∈ visited

instance (obs : PMap (Entity × Obstacle)) (visited : List Position) :
    Decidable (ScanClosed obs visited) := by
  unfold ScanClosed
  infer_instance

/-- Every goal key is covered by some obstacle (the win condition checked
by `move_objects`). -/
def AllGoalsCovered (s : LevelState) : Prop :=
  ∀ g ∈ s.goals, containsA s.obstacles g.1 = true

instance (s : LevelState) : Decidable (AllGoalsCovered s) :=
  List.decidableBAll _ s.goals

/-! ## Concrete states used as witnesses -/

/-- The loaded level-one state (`levelSetup` always succeeds on `level_one`;
the default is never used). -/
def lvl1 : LevelState := (levelSetup 1 level_one).getD ⟨0, [], [], ⟨0, 0⟩⟩

/-- A fallback `Pending` used only under `Option.getD` on resolutions that
are in fact `some`. -/
def noPending : Pending := ⟨⟨⟨0, 0⟩, ⟨0, 0⟩⟩, none⟩

/-- The pending moves of the first left push on level one. -/
def pL : Pending := (resolve lvl1 Dir.left).getD noPending

/-- State, stack and signal after the first left move on level one. -/
def lvl1a : LevelState × UndoStack × Option Int := tryMove lvl1 [] Dir.left

/-- State, stack and signal after the second left move on level one. -/
def lvl1b : LevelState × UndoStack × Option Int := tryMove lvl1a.1 lvl1a.2.1 Dir.left

/-- The pending moves of the second left push on level one. -/
def pL2 : Pending := (resolve lvl1a.1 Dir.left).getD noPending

/-- A minimal goalless state on an open plane: player alone at the origin. -/
def sW : LevelState := ⟨1, [], [], ⟨0, 0⟩⟩

/-- The pending move of a left step from `sW`. -/
def pW : Pending := (resolve sW Dir.left).getD noPending

/-- A one-row layout whose boundary is open: a floor cell, a block, and the
player. Used to exhibit the absence of any bounds check. -/
def level_gap : List (List Int) := [[0, 2, 1]]

/-- The loaded `level_gap` state. -/
def gap0 : LevelState := (levelSetup 1 level_gap).getD ⟨0, [], [], ⟨0, 0⟩⟩

/-! ## Association-list lemmas (the `HashMap` facts the proofs use) -/

theorem lookupA_eraseA_self {α : Type} (m : PMap α) (p : Position) :
    lookupA (eraseA m p) p = none := by
  induction m with
  | nil => rfl
  | cons kv rest ih =>
      by_cases h : kv.1 = p
      · simp [eraseA, h, ih]
      · simp [eraseA, lookupA, h, ih]

theorem lookupA_eraseA_ne {α : Type} (m : PMap α) {p q : Position} (h : q ≠ p) :
    lookupA (eraseA m p) q = lookupA m q := by
  induction m with
  | nil => rfl
  | cons kv rest ih =>
      obtain ⟨k, v⟩ := kv
      simp only [eraseA]
      by_cases hk : k = p
      · rw [if_pos hk, ih]
        have : k ≠ q := fun hc => h (hk ▸ hc ▸ rfl)
        simp only [lookupA, if_neg this]
      · rw [if_neg hk]
        by_cases hq : k = q
        · simp only [lookupA, if_pos hq]
        · simp only [lookupA, if_neg hq, ih]

theorem lookupA_insertA_self {α : Type} (m : PMap α) (p : Position) (v : α) :
    lookupA (insertA m p v) p = some v := by
  simp [insertA, lookupA]

theorem lookupA_insertA_ne {α : Type} (m : PMap α) {p q : Position} (v : α) (h : q ≠ p) :
    lookupA (insertA m p v) q = lookupA m q := by
  have : p ≠ q := fun hc => h hc.symm
  simp [insertA, lookupA, this, lookupA_eraseA_ne m h]

theorem containsA_eq_false_iff {α : Type} (m : PMap α) (p : Position) :
    containsA m p = false ↔ lookupA m p = none := by
  cases h : lookupA m p <;> simp [containsA, h]

theorem mem_eraseA {α : Type} {m : PMap α} {p : Position} {e : Position × α}
    (h : e ∈ eraseA m p) : e ∈ m := by
  induction m with
  | nil => exact absurd h (List.not_mem_nil e)
  | cons kv rest ih =>
      by_cases hk : kv.1 = p
      · simp only [eraseA, if_pos hk] at h
        exact List.mem_cons_of_mem kv (ih h)
      · simp only [eraseA, if_neg hk] at h
        rcases List.mem_cons.mp h with h1 | h2
        · exact h1 ▸ List.mem_cons_self kv rest
        · exact List.mem_cons_of_mem kv (ih h2)

theorem mem_insertA {α : Type} {m : PMap α} {p : Position} {v : α} {e : Position × α}
    (h : e ∈ insertA m p v) : e = (p, v) ∨ e ∈ m := by
  rcases List.mem_cons.mp h with h1 | h2
  · exact Or.inl h1
  · exact Or.inr (mem_eraseA h2)

theorem containsA_insertA_ne {α : Type} (m : PMap α) {p q : Position} (v : α) (h : q ≠ p) :
    containsA (insertA m p v) q = containsA m q := by
  simp [containsA, lookupA_insertA_ne m v h]

/-! ## Small facts about directions and the commit step -/

theorem add_delta_ne (p : Position) (d : Dir) : p.add d.delta.1 d.delta.2 ≠ p := by
  intro hc
  have hx : p.x + d.delta.1 = p.x := congrArg Position.x hc
  have hy : p.y + d.delta.2 = p.y := congrArg Position.y hc
  cases d <;> simp [Dir.delta] at hx hy

/-- A committed plain move (no block pushed) from a state where the player
does not stand on an obstacle key: only `player_position` changes. -/
theorem commitPending_plain (s : LevelState) (moveTo : Position)
    (hinv : containsA s.obstacles s.player_position = false) :
    commitPending s ⟨⟨s.player_position, moveTo⟩, none⟩ =
      { s with player_position := moveTo } := by
  have h0 : lookupA s.obstacles s.player_position = none :=
    (containsA_eq_false_iff s.obstacles s.player_position).mp hinv
  simp [commitPending, applyMoving, h0]

/-- A committed push from a state where the player does not stand on an
obstacle key: `player_position` becomes the destination, and the block's
entry is removed from the destination and reinserted one tile beyond. -/
theorem commitPending_push (s : LevelState) (e : Entity) (moveTo blockTo : Position)
    (hb : lookupA s.obstacles moveTo = some (e, Obstacle.Block))
    (hinv : containsA s.obstacles s.player_position = false) :
    commitPending s ⟨⟨s.player_position, moveTo⟩, some (e, ⟨moveTo, blockTo⟩)⟩ =
      { s with
        player_position := moveTo
        obstacles := insertA (eraseA s.obstacles moveTo) blockTo (e, Obstacle.Block) } := by
  have h0 : lookupA s.obstacles s.player_position = none :=
    (containsA_eq_false_iff s.obstacles s.player_position).mp hinv
  simp [commitPending, applyMoving, h0, hb]

/-- The commit loop body never touches `goals`. -/
theorem applyMoving_goals (b : Bool) (s : LevelState) (m : Moving) :
    (applyMoving b s m).goals = s.goals := by
  unfold applyMoving
  dsimp only
  split <;> cases b <;> rfl

/-- The commit loop body never touches `current_level`. -/
theorem applyMoving_current_level (b : Bool) (s : LevelState) (m : Moving) :
    (applyMoving b s m).current_level = s.current_level := by
  unfold applyMoving
  dsimp only
  split <;> cases b <;> rfl

/-- A commit never touches `goals`. -/
theorem commitPending_goals (s : LevelState) (p : Pending) :
    (commitPending s p).goals = s.goals := by
  unfold commitPending
  dsimp only
  split <;> simp [applyMoving_goals]

/-- A commit never touches `current_level`. -/
theorem commitPending_current_level (s : LevelState) (p : Pending) :
    (commitPending s p).current_level = s.current_level := by
  unfold commitPending
  dsimp only
  split <;> simp [applyMoving_current_level]

/-- Destructor for an accepted resolution: the player's pending move runs
from the current position to the destination, and the optional block move
is present exactly when the destination holds a block whose beyond tile is
free. -/
theorem resolve_eq (s : LevelState) (d : Dir) (p : Pending) (h : resolve s d = some p) :
    p.playerMove = ⟨s.player_position, dest s d⟩ ∧
    ((p.blockMove = none ∧ lookupA s.obstacles (dest s d) = none) ∨
     (∃ e, p.blockMove = some (e, ⟨dest s d, beyond s d⟩) ∧
        lookupA s.obstacles (dest s d) = some (e, Obstacle.Block) ∧
        containsA s.obstacles (beyond s d) = false)) := by
  unfold resolve at h
  cases hm : lookupA s.obstacles (dest s d) with
  | none =>
      rw [hm] at h
      simp only [Option.some.injEq] at h
      subst h
      exact ⟨rfl, Or.inl ⟨rfl, rfl⟩⟩
  | some eo =>
      rw [hm] at h
      rcases eo with ⟨e, ob⟩
      cases ob with
      | Wall => simp at h
      | Block =>
          simp only at h
          by_cases hc : containsA s.obstacles (beyond s d) = true
          · rw [if_pos hc] at h
            exact absurd h (by simp)
          · rw [if_neg hc] at h
            simp only [Option.some.injEq] at h
            subst h
            exact ⟨rfl, Or.inr ⟨e, rfl, rfl, Bool.eq_false_iff.mpr hc⟩⟩

/-! ## Loader lemmas: cell enumeration bounds and distinctness -/

theorem mem_rowCells {y : Nat} :
    ∀ (cs : List Int) (x : Nat) (pc : Position × Int), pc ∈ rowCells y x cs →
      pc.1.y = (y : Int) ∧ (x : Int) ≤ pc.1.x ∧
      pc.1.x < (x : Int) + (cs.length : Int) := by
  intro cs
  induction cs with
  | nil => intro x pc h; exact absurd h (List.not_mem_nil _)
  | cons c cs ih =>
      intro x pc h
      rcases List.mem_cons.mp h with h1 | h2
      · subst h1
        refine ⟨rfl, le_refl _, ?_⟩
        simp only [List.length_cons]
        omega
      · obtain ⟨hy, hle, hlt⟩ := ih (x + 1) pc h2
        refine ⟨hy, ?_, ?_⟩
        · omega
        · simp only [List.length_cons]
          omega

theorem mem_cellsFrom {C : Int} :
    ∀ (rows : List (List Int)) (y : Nat) (pc : Position × Int),
      (∀ row ∈ rows, (row.length : Int) = C) → pc ∈ cellsFrom y rows →
      0 ≤ pc.1.x ∧ pc.1.x < C ∧ (y : Int) ≤ pc.1.y ∧
      pc.1.y < (y : Int) + (rows.length : Int) := by
  intro rows
  induction rows with
  | nil => intro y pc _ h; exact absurd h (List.not_mem_nil _)
  | cons row rows ih =>
      intro y pc hC h
      rcases List.mem_append.mp h with h1 | h2
      · obtain ⟨hy, hle, hlt⟩ := mem_rowCells row 0 pc h1
        have hCr : (row.length : Int) = C := hC row (List.mem_cons_self _ _)
        refine ⟨by omega, by omega, le_of_eq hy.symm, ?_⟩
        rw [hy]
        simp only [List.length_cons]
        omega
      · obtain ⟨h0, hx, hyle, hylt⟩ :=
          ih (y + 1) pc (fun r hr => hC r (List.mem_cons_of_mem _ hr)) h2
        refine ⟨h0, hx, by omega, ?_⟩
        simp only [List.length_cons]
        omega

theorem mem_cellsFrom_y :
    ∀ (rows : List (List Int)) (y : Nat) (pc : Position × Int),
      pc ∈ cellsFrom y rows → (y : Int) ≤ pc.1.y := by
  intro rows
  induction rows with
  | nil => intro y pc h; exact absurd h (List.not_mem_nil _)
  | cons row rows ih =>
      intro y pc h
      rcases List.mem_append.mp h with h1 | h2
      · obtain ⟨hy, _, _⟩ := mem_rowCells row 0 pc h1
        exact le_of_eq hy.symm
      · have := ih (y + 1) pc h2
        omega

theorem rowCells_pairwise (y : Nat) :
    ∀ (cs : List Int) (x : Nat),
      (rowCells y x cs).Pairwise (fun a b => a.1 ≠ b.1) := by
  intro cs
  induction cs with
  | nil => intro x; exact List.Pairwise.nil
  | cons c cs ih =>
      intro x
      refine List.Pairwise.cons ?_ (ih (x + 1))
      intro b hb hc
      obtain ⟨_, hle, _⟩ := mem_rowCells cs (x + 1) b hb
      rw [← hc] at hle
      simp only [Position.mk.injEq] at hle
      omega

theorem cellsFrom_pairwise :
    ∀ (rows : List (List Int)) (y : Nat),
      (cellsFrom y rows).Pairwise (fun a b => a.1 ≠ b.1) := by
  intro rows
  induction rows with
  | nil => intro y; exact List.Pairwise.nil
  | cons row rows ih =>
      intro y
      rw [cellsFrom]
      refine List.pairwise_append.mpr ⟨rowCells_pairwise y row 0, ih (y + 1), ?_⟩
      intro a ha b hb
      obtain ⟨hay, _, _⟩ := mem_rowCells row 0 a ha
      have hby := mem_cellsFrom_y rows (y + 1) b hb
      intro hc
      rw [hc] at hay
      rw [hay] at hby
      omega

theorem levelCells_inBounds (layout : List (List Int)) (hrect : Rectangular layout) :
    ∀ pc ∈ levelCells layout, InBounds layout pc.1 := by
  intro pc h
  obtain ⟨hx0, hxC, hy0, hyN⟩ :=
    mem_cellsFrom layout 0 pc (fun r hr => hrect r hr) h
  exact ⟨hx0, hxC, hy0, by unfold rowCount; omega⟩

theorem levelCells_pairwise (layout : List (List Int)) :
    (levelCells layout).Pairwise (fun a b => a.1 ≠ b.1) :=
  cellsFrom_pairwise layout 0

/-- The fold invariant of the loader: bounds for inserted obstacle and goal
keys, and the player never on an obstacle key (cell positions are pairwise
distinct, so the player cell's position never collides with an obstacle
cell's). -/
theorem loadCells_inv (layout : List (List Int)) :
    ∀ (cells : List (Position × Int)) (acc : LoadAcc),
    (∀ pc ∈ cells, InBounds layout pc.1) →
    List.Pairwise (fun a b => a.1 ≠ b.1) cells →
    (∀ e ∈ acc.obstacles, InBounds layout e.1) →
    (∀ g ∈ acc.goals, InBounds layout g.1) →
    (∀ pp, acc.player = some pp →
       containsA acc.obstacles pp = false ∧ ∀ pc ∈ cells, pc.1 ≠ pp) →
    (∀ pc ∈ cells, containsA acc.obstacles pc.1 = false) →
    (∀ e ∈ (loadCells acc cells).obstacles, InBounds layout e.1) ∧
    (∀ g ∈ (loadCells acc cells).goals, InBounds layout g.1) ∧
    (∀ pp, (loadCells acc cells).player = some pp →
       containsA (loadCells acc cells).obstacles pp = false) := by
  intro cells
  induction cells with
  | nil =>
      intro acc _ _ h3 h4 h5 _
      exact ⟨h3, h4, fun pp hpp => (h5 pp hpp).1⟩
  | cons pc rest ih =>
      intro acc h1 h2 h3 h4 h5 h6
      obtain ⟨pos, code⟩ := pc
      have hb_pos : InBounds layout pos := h1 (pos, code) (List.mem_cons_self _ _)
      have h1' : ∀ q ∈ rest, InBounds layout q.1 :=
        fun q hq => h1 q (List.mem_cons_of_mem _ hq)
      have hpair : ∀ q ∈ rest, q.1 ≠ pos := by
        intro q hq hc
        exact (List.pairwise_cons.mp h2).1 q hq hc.symm
      have h2' := (List.pairwise_cons.mp h2).2
      have h6' : ∀ q ∈ rest, containsA acc.obstacles q.1 = false :=
        fun q hq => h6 q (List.mem_cons_of_mem _ hq)
      rw [loadCells]
      by_cases hc1 : code = 1
      · subst hc1
        have hacc : loadCell acc pos 1 =
            { acc with nextId := acc.nextId + 1 + 1, player := some pos } := by
          simp [loadCell]
        rw [hacc]
        refine ih _ h1' h2' h3 h4 ?_ h6'
        intro pp hpp
        simp only [Option.some.injEq] at hpp
        subst hpp
        exact ⟨h6 (pos, 1) (List.mem_cons_self _ _), fun q hq => hpair q hq⟩
      · by_cases hc2 : code = 2
        · subst hc2
          have hacc : loadCell acc pos 2 =
              { acc with
                nextId := acc.nextId + 1 + 1
                obstacles := insertA acc.obstacles pos (acc.nextId + 1, Obstacle.Block) } := by
            simp [loadCell]
          rw [hacc]
          refine ih _ h1' h2' ?_ h4 ?_ ?_
          · intro e he
            rcases mem_insertA he with h | h
            · rw [h]
              exact hb_pos
            · exact h3 e h
          · intro pp hpp
            obtain ⟨hcon, hne⟩ := h5 pp hpp
            have hppne : pp ≠ pos := fun hc => (hne (pos, 2) (List.mem_cons_self _ _)) hc.symm
            refine ⟨?_, fun q hq => hne q (List.mem_cons_of_mem _ hq)⟩
            rw [containsA_insertA_ne _ _ hppne]
            exact hcon
          · intro q hq
            rw [containsA_insertA_ne _ _ (hpair q hq)]
            exact h6' q hq
        · by_cases hc4 : code = 4
          · subst hc4
            have hacc : loadCell acc pos 4 =
                { acc with
                  nextId := acc.nextId + 1 + 1
                  goals := insertA acc.goals pos (acc.nextId + 1) } := by
              simp [loadCell]
            rw [hacc]
            refine ih _ h1' h2' h3 ?_ ?_ h6'
            · intro g hg
              rcases mem_insertA hg with h | h
              · rw [h]
                exact hb_pos
              · exact h4 g h
            · intro pp hpp
              obtain ⟨hcon, hne⟩ := h5 pp hpp
              exact ⟨hcon, fun q hq => hne q (List.mem_cons_of_mem _ hq)⟩
          · by_cases hc8 : code = 8
            · subst hc8
              have hacc : loadCell acc pos 8 =
                  { acc with
                    nextId := acc.nextId + 1 + 1
                    obstacles := insertA acc.obstacles pos (acc.nextId + 1, Obstacle.Wall) } := by
                simp [loadCell]
              rw [hacc]
              refine ih _ h1' h2' ?_ h4 ?_ ?_
              · intro e he
                rcases mem_insertA he with h | h
                · rw [h]
                  exact hb_pos
                · exact h3 e h
              · intro pp hpp
                obtain ⟨hcon, hne⟩ := h5 pp hpp
                have hppne : pp ≠ pos :=
                  fun hc => (hne (pos, 8) (List.mem_cons_self _ _)) hc.symm
                refine ⟨?_, fun q hq => hne q (List.mem_cons_of_mem _ hq)⟩
                rw [containsA_insertA_ne _ _ hppne]
                exact hcon
              · intro q hq
                rw [containsA_insertA_ne _ _ (hpair q hq)]
                exact h6' q hq
            · have hacc : loadCell acc pos code =
                  { acc with nextId := acc.nextId + 1 } := by
                simp [loadCell, hc1, hc2, hc4, hc8]
              rw [hacc]
              refine ih _ h1' h2' h3 h4 ?_ h6'
              intro pp hpp
              obtain ⟨hcon, hne⟩ := h5 pp hpp
              exact ⟨hcon, fun q hq => hne q (List.mem_cons_of_mem _ hq)⟩

/-- Loading a rectangular layout establishes the full `LevelState`
invariant. -/
theorem levelSetup_inv (lvl : Int) (layout : List (List Int)) (s : LevelState)
    (hrect : Rectangular layout) (h : levelSetup lvl layout = some s) :
    StateInv layout s := by
  simp only [levelSetup] at h
  have inv := loadCells_inv layout (levelCells layout) ⟨1, [], [], none⟩
      (levelCells_inBounds layout hrect) (levelCells_pairwise layout)
      (fun e he => absurd he (List.not_mem_nil _))
      (fun g hg => absurd hg (List.not_mem_nil _))
      (fun pp hpp => Option.noConfusion hpp)
      (fun q _ => rfl)
  cases hp : (loadCells ⟨1, [], [], none⟩ (levelCells layout)).player with
  | none =>
      rw [hp] at h
      exact Option.noConfusion h
  | some pp =>
      rw [hp] at h
      simp only [Option.some.injEq] at h
      subst h
      exact ⟨inv.1, inv.2.1, inv.2.2 pp hp⟩

/-! ## Connectivity-scan lemmas -/

/-- Everything the flood fill visits is reachable from the start through
traversable tiles (invariant: all of `visited` and `frontier` are). -/
theorem scanAux_sound (obs : PMap (Entity × Obstacle)) (start : Position) :
    ∀ (fuel : Nat) (visited frontier : List Position),
    (∀ v ∈ visited, Reach obs start v) →
    (∀ q ∈ frontier, Reach obs start q) →
    ∀ v ∈ scanAux obs fuel visited frontier, Reach obs start v := by
  intro fuel
  induction fuel with
  | zero => intro visited frontier hv _ v hm; exact hv v hm
  | succ n ih =>
      intro visited frontier hv hf v hm
      cases frontier with
      | nil => exact hv v hm
      | cons p front =>
          rw [scanAux] at hm
          by_cases hp : p ∈ visited
          · rw [if_pos hp] at hm
            exact ih visited front hv (fun q hq => hf q (List.mem_cons_of_mem _ hq)) v hm
          · rw [if_neg hp] at hm
            have hrp : Reach obs start p := hf p (List.mem_cons_self _ _)
            refine ih _ _ ?_ ?_ v hm
            · intro w hw
              rcases List.mem_cons.mp hw with h1 | h2
              · exact h1 ▸ hrp
              · exact hv w h2
            · intro q hq
              rcases List.mem_append.mp hq with h1 | h2
              · obtain ⟨hqn, hqt⟩ := List.mem_filter.mp h1
                exact Reach.step hrp hqn hqt
              · exact hf q (List.mem_cons_of_mem _ h2)

/-- Any saturated set containing the start contains everything reachable. -/
theorem reach_subset_closed (obs : PMap (Entity × Obstacle)) (start : Position)
    (S : List Position) (hs : start ∈ S) (hc : ScanClosed obs S) :
    ∀ p, Reach obs start p → p ∈ S := by
  intro p h
  induction h with
  | refl => exact hs
  | step _ hq ht ih => exact hc _ ih _ hq ht

/-! ## Claim theorems -/

/-- C1: Undo is an exact inverse. For every initial `LevelState`, every
initial undo stack and every sequence of legal moves each run to commit,
performing as many undo operations returns the `LevelState` (and the
stack) to the original value, field for field; and an undo requested when
the `UndoStack` is empty is a silent no-op on the `LevelState`. -/
theorem undo_exact_inverse (s : LevelState) (u : UndoStack) (ds : List Dir)
    (h : movesLegal s ds = true) :
    undoN ds.length (applyMoves s u ds) = (s, u) ∧ undoOp (s, []) = (s, []) := by
  refine ⟨?_, rfl⟩
  revert h
  induction ds generalizing s u with
  | nil => intro _; rfl
  | cons d ds ih =>
      intro h
      cases hres : resolve s d with
      | none =>
          simp only [movesLegal, hres] at h
          exact Bool.noConfusion h
      | some p =>
          simp only [movesLegal, hres] at h
          have happ : applyMoves s u (d :: ds) =
              applyMoves (commitPending s p) (s :: u) ds := by
            simp [applyMoves, tryMove, hres]
          rw [List.length_cons, happ]
          have hstep :
              undoN (ds.length + 1) (applyMoves (commitPending s p) (s :: u) ds) =
                undoOp (undoN ds.length (applyMoves (commitPending s p) (s :: u) ds)) := rfl
          rw [hstep, ih _ _ h]
          rfl

/-- Witness for C1: the two legal left pushes on level one, undone twice,
restore the loaded state and the empty stack. -/
theorem undo_exact_inverse_witness :
    movesLegal lvl1 [Dir.left, Dir.left] = true ∧
    (undoN 2 (applyMoves lvl1 [] [Dir.left, Dir.left]) = (lvl1, []) ∧
     undoOp (lvl1, []) = (lvl1, [])) :=
  ⟨by decide, undo_exact_inverse lvl1 [] [Dir.left, Dir.left] (by decide)⟩

/-- C2 counterexample: after the first committed left push on level one,
the snapshot on top of the undo stack is not the post-mutation state —
`undo_stack.push(level_state.clone())` runs before the mutation loop
(`play_plugin.rs` line 178), so the claim is false at this input. -/
theorem snapshot_not_post_state : ¬ (lvl1a.2.1.head? = some lvl1a.1) := by decide

/-- C2 amended: on every move-timer completion, the snapshot pushed onto
the `UndoStack` is the current pre-mutation state — the push occurs before
the obstacles remap and before the `player_position` update, so the top of
the stack equals the `LevelState` immediately before the committed move. -/
theorem snapshot_is_pre_state (s : LevelState) (u : UndoStack) (d : Dir) (p : Pending)
    (h : resolve s d = some p) :
    (tryMove s u d).2.1 = s :: u := by
  simp [tryMove, h]

/-- Witness for the amended C2: the first left push on level one leaves the
loaded state itself on top of the stack. -/
theorem snapshot_is_pre_state_witness :
    resolve lvl1 Dir.left = some pL ∧ (tryMove lvl1 [] Dir.left).2.1 = [lvl1] :=
  ⟨by decide, snapshot_is_pre_state lvl1 [] Dir.left pL (by decide)⟩

/-- C3: Rejected moves are state-preserving no-ops. When the destination
tile holds a `Wall`, or holds a `Block` whose beyond tile holds any
obstacle, the resolver rejects: no `Pending` record is created, and the
tick leaves the `LevelState`, the undo stack and the signal untouched.
Rejection is not an error (it is the `none` outcome, not a failure). -/
theorem rejected_move_noop (s : LevelState) (u : UndoStack) (d : Dir)
    (h : (lookupA s.obstacles (dest s d)).map Prod.snd = some Obstacle.Wall ∨
         ((lookupA s.obstacles (dest s d)).map Prod.snd = some Obstacle.Block ∧
          containsA s.obstacles (beyond s d) = true)) :
    resolve s d = none ∧ tryMove s u d = (s, u, none) := by
  have hres : resolve s d = none := by
    unfold resolve
    rcases h with hw | ⟨hb, hc⟩
    · cases hm : lookupA s.obstacles (dest s d) with
      | none => rw [hm] at hw; exact absurd hw (by simp)
      | some eo =>
          rw [hm] at hw
          rcases eo with ⟨e, ob⟩
          cases ob with
          | Block => exact absurd hw (by simp)
          | Wall => rfl
    · cases hm : lookupA s.obstacles (dest s d) with
      | none => rw [hm] at hb; exact absurd hb (by simp)
      | some eo =>
          rw [hm] at hb
          rcases eo with ⟨e, ob⟩
          cases ob with
          | Wall => rfl
          | Block => simp [hc]
  exact ⟨hres, by simp [tryMove, hres]⟩

/-- Witness for C3: on level one, moving up from the start bumps the wall
at `(4, 0)` and nothing happens. -/
theorem rejected_move_noop_witness :
    ((lookupA lvl1.obstacles (dest lvl1 Dir.up)).map Prod.snd = some Obstacle.Wall ∨
     ((lookupA lvl1.obstacles (dest lvl1 Dir.up)).map Prod.snd = some Obstacle.Block ∧
      containsA lvl1.obstacles (beyond lvl1 Dir.up) = true)) ∧
    (resolve lvl1 Dir.up = none ∧ tryMove lvl1 [] Dir.up = (lvl1, [], none)) :=
  ⟨Or.inl (by decide), rejected_move_noop lvl1 [] Dir.up (Or.inl (by decide))⟩

/-- C4: the win/progression check. After a committed move, the
level-advance signal is raised, carrying `current_level + 1`, exactly when
every goal key is also a key of the post-commit obstacles map; when some
goal is uncovered no signal is raised. -/
theorem win_signal_iff (s : LevelState) (u : UndoStack) (d : Dir) (p : Pending)
    (h : resolve s d = some p) :
    (AllGoalsCovered (tryMove s u d).1 →
       (tryMove s u d).2.2 = some (s.current_level + 1)) ∧
    (¬ AllGoalsCovered (tryMove s u d).1 → (tryMove s u d).2.2 = none) := by
  have ht1 : (tryMove s u d).1 = commitPending s p := by simp [tryMove, h]
  have ht2 : (tryMove s u d).2.2 = winSignal (commitPending s p) := by simp [tryMove, h]
  rw [ht1, ht2]
  constructor
  · intro hc
    have hall : (commitPending s p).goals.all
        (fun g => containsA (commitPending s p).obstacles g.1) = true :=
      List.all_eq_true.mpr (fun g hg => hc g hg)
    simp [winSignal, hall, commitPending_current_level]
  · intro hc
    have hall : ¬ ((commitPending s p).goals.all
        (fun g => containsA (commitPending s p).obstacles g.1) = true) :=
      fun hb => hc (fun g hg => List.all_eq_true.mp hb g hg)
    simp [winSignal, hall]

/-- Witness for C4: the second left push on level one covers the only
goal, and the signal carries level id 2. -/
theorem win_signal_iff_witness :
    resolve lvl1a.1 Dir.left = some pL2 ∧
    ((AllGoalsCovered (tryMove lvl1a.1 lvl1a.2.1 Dir.left).1 →
        (tryMove lvl1a.1 lvl1a.2.1 Dir.left).2.2 = some (lvl1a.1.current_level + 1)) ∧
     (¬ AllGoalsCovered (tryMove lvl1a.1 lvl1a.2.1 Dir.left).1 →
        (tryMove lvl1a.1 lvl1a.2.1 Dir.left).2.2 = none)) :=
  ⟨by decide, win_signal_iff lvl1a.1 lvl1a.2.1 Dir.left pL2 (by decide)⟩

/-- C9: with an empty goals map, the coverage check is vacuously true, so
every committed move raises the level-advance signal carrying
`current_level + 1`, wherever the player and the blocks are. -/
theorem empty_goals_always_advance (s : LevelState) (u : UndoStack) (d : Dir) (p : Pending)
    (hg : s.goals = []) (h : resolve s d = some p) :
    (tryMove s u d).2.2 = some (s.current_level + 1) := by
  have ht2 : (tryMove s u d).2.2 = winSignal (commitPending s p) := by simp [tryMove, h]
  have hg' : (commitPending s p).goals = [] := by rw [commitPending_goals, hg]
  rw [ht2]
  simp [winSignal, hg', commitPending_current_level]

/-- Witness for C9: a lone player on an open plane with no goals signals
level advance after a single left step. -/
theorem empty_goals_always_advance_witness :
    sW.goals = [] ∧ resolve sW Dir.left = some pW ∧
    (tryMove sW [] Dir.left).2.2 = some (sW.current_level + 1) :=
  ⟨rfl, by decide, empty_goals_always_advance sW [] Dir.left pW rfl (by decide)⟩

/-- C6: single-move atomicity. For a valid move committed from a state
where the player does not stand on an obstacle key, only the moved
objects' entries change: `player_position` becomes the pending move's
`to`; if a block was pushed, its obstacles entry moves from `from` to
`to` keeping the same entity identity and `Obstacle` variant; every other
obstacles entry, the whole goals map and `current_level` are unchanged. -/
theorem single_move_atomicity (s : LevelState) (u : UndoStack) (d : Dir) (p : Pending)
    (h : resolve s d = some p)
    (hinv : containsA s.obstacles s.player_position = false) :
    (tryMove s u d).1.current_level = s.current_level ∧
    (tryMove s u d).1.goals = s.goals ∧
    (tryMove s u d).1.player_position = p.playerMove.toPos ∧
    (p.blockMove = none → (tryMove s u d).1.obstacles = s.obstacles) ∧
    (∀ e bm, p.blockMove = some (e, bm) →
       lookupA s.obstacles bm.fromPos = some (e, Obstacle.Block) ∧
       lookupA (tryMove s u d).1.obstacles bm.toPos = some (e, Obstacle.Block) ∧
       lookupA (tryMove s u d).1.obstacles bm.fromPos = none ∧
       (∀ q, q ≠ bm.fromPos → q ≠ bm.toPos →
          lookupA (tryMove s u d).1.obstacles q = lookupA s.obstacles q)) := by
  have ht1 : (tryMove s u d).1 = commitPending s p := by simp [tryMove, h]
  rw [ht1]
  obtain ⟨hpm, hcase⟩ := resolve_eq s d p h
  rcases hcase with ⟨hbm, _⟩ | ⟨e, hbm, hblk, _⟩
  · have hp : p = ⟨⟨s.player_position, dest s d⟩, none⟩ := by
      cases p
      simp only at hpm hbm
      rw [hpm, hbm]
    subst hp
    rw [commitPending_plain s (dest s d) hinv]
    refine ⟨rfl, rfl, rfl, fun _ => rfl, ?_⟩
    intro e bm hbm2
    exact absurd hbm2 (by simp)
  · have hp : p = ⟨⟨s.player_position, dest s d⟩, some (e, ⟨dest s d, beyond s d⟩)⟩ := by
      cases p
      simp only at hpm hbm
      rw [hpm, hbm]
    subst hp
    rw [commitPending_push s e (dest s d) (beyond s d) hblk hinv]
    have hne : dest s d ≠ beyond s d := Ne.symm (add_delta_ne (dest s d) d)
    refine ⟨rfl, rfl, rfl, ?_, ?_⟩
    · intro hbm2
      exact absurd hbm2 (by simp)
    · intro e' bm' hbm2
      simp only [Option.some.injEq, Prod.mk.injEq] at hbm2
      obtain ⟨he, hbm'⟩ := hbm2
      subst he
      subst hbm'
      refine ⟨hblk, ?_, ?_, ?_⟩
      · exact lookupA_insertA_self _ _ _
      · rw [lookupA_insertA_ne _ _ hne, lookupA_eraseA_self]
      · intro q hq1 hq2
        rw [lookupA_insertA_ne _ _ hq2, lookupA_eraseA_ne _ hq1]

/-- Witness for C6: the first left push on level one. -/
theorem single_move_atomicity_witness :
    resolve lvl1 Dir.left = some pL ∧
    containsA lvl1.obstacles lvl1.player_position = false ∧
    ((tryMove lvl1 [] Dir.left).1.current_level = lvl1.current_level ∧
     (tryMove lvl1 [] Dir.left).1.goals = lvl1.goals ∧
     (tryMove lvl1 [] Dir.left).1.player_position = pL.playerMove.toPos ∧
     (pL.blockMove = none → (tryMove lvl1 [] Dir.left).1.obstacles = lvl1.obstacles) ∧
     (∀ e bm, pL.blockMove = some (e, bm) →
        lookupA lvl1.obstacles bm.fromPos = some (e, Obstacle.Block) ∧
        lookupA (tryMove lvl1 [] Dir.left).1.obstacles bm.toPos = some (e, Obstacle.Block) ∧
        lookupA (tryMove lvl1 [] Dir.left).1.obstacles bm.fromPos = none ∧
        (∀ q, q ≠ bm.fromPos → q ≠ bm.toPos →
           lookupA (tryMove lvl1 [] Dir.left).1.obstacles q = lookupA lvl1.obstacles q))) :=
  ⟨by decide, by decide, single_move_atomicity lvl1 [] Dir.left pL (by decide) (by decide)⟩

/-- C8: the concrete level-one scenario. Loading `level_one` places the
player at `(4,1)`, a block at `(3,1)` and a goal at `(1,1)`; the first
committed left move pushes the block to `(2,1)` and the player to `(3,1)`
with no signal; the second pushes the block onto the goal at `(1,1)`,
moves the player to `(2,1)`, and the win signal fires carrying level id 2;
the third left attempt is rejected (wall at `(0,1)`). -/
theorem level_one_scenario :
    lvl1.player_position = ⟨4, 1⟩ ∧
    (lookupA lvl1.obstacles ⟨3, 1⟩).map Prod.snd = some Obstacle.Block ∧
    containsA lvl1.goals ⟨1, 1⟩ = true ∧
    lvl1a.1.player_position = ⟨3, 1⟩ ∧
    (lookupA lvl1a.1.obstacles ⟨2, 1⟩).map Prod.snd = some Obstacle.Block ∧
    lvl1a.2.2 = none ∧
    lvl1b.1.player_position = ⟨2, 1⟩ ∧
    (lookupA lvl1b.1.obstacles ⟨1, 1⟩).map Prod.snd = some Obstacle.Block ∧
    lvl1b.2.2 = some 2 ∧
    (lookupA lvl1.obstacles ⟨0, 1⟩).map Prod.snd = some Obstacle.Wall ∧
    resolve lvl1b.1 Dir.left = none := by
  decide

/-- C10: move legality performs no bounds check. On the open one-row layout
`level_gap` the three left moves are all legal; after two of them the
pushed block's obstacles key is `(-1, 0)`, outside the layout bounds and
at a negative coordinate, and after the third the committed
`player_position` is `(-1, 0)` as well. -/
theorem no_bounds_check :
    movesLegal gap0 [Dir.left, Dir.left, Dir.left] = true ∧
    (lookupA (applyMoves gap0 [] [Dir.left, Dir.left]).1.obstacles ⟨-1, 0⟩).map Prod.snd
      = some Obstacle.Block ∧
    ¬ InBounds level_gap ⟨-1, 0⟩ ∧
    (Position.mk (-1) 0).x < 0 ∧
    (applyMoves gap0 [] [Dir.left, Dir.left, Dir.left]).1.player_position = ⟨-1, 0⟩ := by
  refine ⟨by decide, by decide, by decide, by decide, by decide⟩

/-- C7 counterexample: the bounds part of the invariant is not preserved by
move commits. The loaded `level_gap` state satisfies the invariant, the two
left moves are legal and run to commit, yet afterwards the pushed block's
obstacles key `(-1, 0)` lies outside the layout bounds. -/
theorem invariant_not_preserved :
    StateInv level_gap gap0 ∧
    movesLegal gap0 [Dir.left, Dir.left] = true ∧
    ¬ StateInv level_gap (applyMoves gap0 [] [Dir.left, Dir.left]).1 := by
  refine ⟨by decide, by decide, by decide⟩

/-- C7 amended: loading a rectangular layout establishes the full invariant
(all obstacle and goal keys in bounds, player not on an obstacle key);
every commit of a resolved move preserves the player-not-on-an-obstacle
part and leaves `goals` (hence goal bounds) unchanged; and an undo yields
either the same state or a previously recorded one. The claim's
in-bounds requirement on obstacle keys is not preserved by commits. -/
theorem state_invariant_amended :
    (∀ (lvl : Int) (layout : List (List Int)) (s : LevelState),
       Rectangular layout → levelSetup lvl layout = some s → StateInv layout s) ∧
    (∀ (s : LevelState) (d : Dir) (p : Pending),
       resolve s d = some p →
       containsA s.obstacles s.player_position = false →
       containsA (commitPending s p).obstacles (commitPending s p).player_position = false ∧
       (commitPending s p).goals = s.goals) ∧
    (∀ (s : LevelState) (u : UndoStack),
       (undoOp (s, u)).1 = s ∨ (undoOp (s, u)).1 ∈ u) := by
  refine ⟨fun lvl layout s hr h => levelSetup_inv lvl layout s hr h, ?_, ?_⟩
  · intro s d p h hinv
    obtain ⟨hpm, hcase⟩ := resolve_eq s d p h
    rcases hcase with ⟨hbm, hnone⟩ | ⟨e, hbm, hblk, _⟩
    · have hp : p = ⟨⟨s.player_position, dest s d⟩, none⟩ := by
        cases p
        simp only at hpm hbm
        rw [hpm, hbm]
      subst hp
      rw [commitPending_plain s (dest s d) hinv]
      refine ⟨?_, rfl⟩
      show containsA s.obstacles (dest s d) = false
      exact (containsA_eq_false_iff _ _).mpr hnone
    · have hp : p = ⟨⟨s.player_position, dest s d⟩, some (e, ⟨dest s d, beyond s d⟩)⟩ := by
        cases p
        simp only at hpm hbm
        rw [hpm, hbm]
      subst hp
      rw [commitPending_push s e (dest s d) (beyond s d) hblk hinv]
      refine ⟨?_, rfl⟩
      have hne : dest s d ≠ beyond s d := Ne.symm (add_delta_ne (dest s d) d)
      show containsA (insertA (eraseA s.obstacles (dest s d)) (beyond s d)
        (e, Obstacle.Block)) (dest s d) = false
      rw [containsA, lookupA_insertA_ne _ _ hne, lookupA_eraseA_self]
      rfl
  · intro s u
    cases u with
    | nil => exact Or.inl rfl
    | cons a rest => exact Or.inr (List.mem_cons_self a rest)

/-- Witness for the amended C7: level one's load, its first push, and an
undo on the empty stack. -/
theorem state_invariant_amended_witness :
    (Rectangular level_one ∧ levelSetup 1 level_one = some lvl1 ∧ StateInv level_one lvl1) ∧
    (resolve lvl1 Dir.left = some pL ∧
     containsA lvl1.obstacles lvl1.player_position = false ∧
     (containsA (commitPending lvl1 pL).obstacles (commitPending lvl1 pL).player_position
        = false ∧
      (commitPending lvl1 pL).goals = lvl1.goals)) ∧
    ((undoOp (lvl1, [])).1 = lvl1 ∨ (undoOp (lvl1, [])).1 ∈ ([] : UndoStack)) :=
  ⟨⟨by decide, by decide,
      state_invariant_amended.1 1 level_one lvl1 (by decide) (by decide)⟩,
   ⟨by decide, by decide,
      state_invariant_amended.2.1 lvl1 Dir.left pL (by decide) (by decide)⟩,
   state_invariant_amended.2.2 lvl1 []⟩

/-- C5: the Connectivity Scan (modelled from the spec; the final loader's
scan-based floor placement is not among the source files) computes, when
it saturates within its fuel, exactly the tiles reachable from the
player's start position through the 4-connected neighbor graph in which
only a `Wall` blocks; those tiles are the ones that receive floor
visuals. -/
theorem connectivity_scan_floors (obs : PMap (Entity × Obstacle)) (start : Position)
    (fuel : Nat)
    (hstart : start ∈ connectivityScan obs start fuel)
    (hclosed : ScanClosed obs (connectivityScan obs start fuel)) :
    ∀ p, p ∈ connectivityScan obs start fuel ↔ Reach obs start p := by
  intro p
  constructor
  · intro hm
    refine scanAux_sound obs start fuel [] [start]
      (fun v hv => absurd hv (List.not_mem_nil _)) ?_ p hm
    intro q hq
    rcases List.mem_cons.mp hq with h1 | h2
    · exact h1 ▸ Reach.refl
    · exact absurd h2 (List.not_mem_nil _)
  · intro hr
    exact reach_subset_closed obs start _ hstart hclosed p hr

/-- Witness for C5: the scan on level one saturates with fuel 100, and the
floor tile `(3, 2)` is in the scan exactly when it is reachable. -/
theorem connectivity_scan_floors_witness :
    (⟨4, 1⟩ : Position) ∈ connectivityScan lvl1.obstacles ⟨4, 1⟩ 100 ∧
    ScanClosed lvl1.obstacles (connectivityScan lvl1.obstacles ⟨4, 1⟩ 100) ∧
    ((⟨3, 2⟩ : Position) ∈ connectivityScan lvl1.obstacles ⟨4, 1⟩ 100 ↔
       Reach lvl1.obstacles ⟨4, 1⟩ ⟨3, 2⟩) :=
  ⟨by decide, by decide,
   connectivity_scan_floors lvl1.obstacles ⟨4, 1⟩ 100 (by decide) (by decide) ⟨3, 2⟩⟩

end Sokoban
